import Mathlib

/-!
# Verification of the linked-list concordance program

A shallow embedding of `linked-list-concordance.js`:

* the `LinkedList` class is modelled as `List α` (a node chain from `head`
  following `next` pointers is exactly a `List`), with each method embedded
  as a function on lists;
* the `concordance` function builds a word → sentence-index map.  A JS `Map`
  is modelled as an association list with unique keys, `Map.get` / `Map.set`
  as `mapGet` / `mapSet` (update-in-place keeps key position, new keys are
  appended, matching `Map` insertion-order semantics);
* `searchLines` is embedded with its control flow intact, in particular the
  fact that `lowerCasedKey` is computed once from the first query term and
  never reassigned inside the `while` loop, and `data[sentenceIndex]` is
  modelled with `List.get?` (JS yields `undefined`, here `none`, when the
  index is out of range).
-/

namespace Concordance

/-- The delimiter class of the JS regex `[\s.,';]`: the whitespace class
plus period, comma, apostrophe and semicolon. -/
def isDelim (c : Char) : Bool :=
  c = ' ' || c = '\t' || c = '\n' || c = '\r' ||
  c = Char.ofNat 11 || c = Char.ofNat 12 ||
  c = '.' || c = ',' || c = '\'' || c = ';'

/-- `String.prototype.split` on a single-character delimiter class, over the
character list: consecutive delimiters, and leading/trailing delimiters,
produce empty tokens, which are kept (the caller filters them). -/
def splitChars : List Char → List (List Char)
  | [] => [[]]
  | c :: rest =>
    if isDelim c then [] :: splitChars rest
    else
      match splitChars rest with
      | t :: ts => (c :: t) :: ts
      | [] => [[c]]

/-- `sentence.split(/[\s.,';]/)` as a function on strings. -/
def splitDelim (s : String) : List String :=
  (splitChars s.data).map (fun cs => String.mk cs)

/-- `String.prototype.toLowerCase()`: lower-case character by character. -/
def toLower (s : String) : String :=
  String.mk (s.data.map Char.toLower)

/-- `[...new Set(array)]`: deduplicate by equality, keeping the first
occurrence of each element, in insertion order. -/
def setDedup (l : List String) : List String :=
  l.foldl (fun acc x => if x ∈ acc then acc else acc ++ [x]) []

/-- The concordance value: a JS `Map` from word strings to index arrays,
modelled as an association list with unique keys (`Object.fromEntries`
turns it into an object with the same own keys, so `hasOwnProperty k`
is `(mapGet m k).isSome` and `concordance[k]` is `mapGet m k`). -/
abbrev Conc := List (String × List Nat)

/-- `Map.prototype.get`: the value at the first (only) entry for `k`. -/
def mapGet : Conc → String → Option (List Nat)
  | [], _ => none
  | p :: rest, k => if p.1 = k then some p.2 else mapGet rest k

/-- `Map.prototype.set`: replace the value at an existing key, keeping its
position, or append a new entry at the end. -/
def mapSet : Conc → String → List Nat → Conc
  | [], k, v => [(k, v)]
  | p :: rest, k, v => if p.1 = k then (k, v) :: rest else p :: mapSet rest k v

/-- The body of the `wordsArray.forEach((word) => ...)` callback in
`concordance`: lower-case the token, skip the empty string, and otherwise
append the sentence index to the word's list (creating it if absent; the
JS truthiness test `if (map.get(word))` distinguishes a present array,
always truthy, from `undefined`). -/
def processWord (index : Nat) (m : Conc) (wRaw : String) : Conc :=
  let word := toLower wRaw
  if word ≠ "" then
    match mapGet m word with
    | some v => mapSet m word (v ++ [index])
    | none => mapSet m word [index]
  else m

/-- One iteration of the `for (let [index, sentence] of data.entries())`
loop: split the sentence, deduplicate the raw tokens with a `Set`, and
process each surviving token. -/
def processSentence (index : Nat) (m : Conc) (sentence : String) : Conc :=
  (setDedup (splitDelim sentence)).foldl (processWord index) m

/-- The indexed loop of `concordance`, threading the map accumulator. -/
def concAux : Nat → List String → Conc → Conc
  | _, [], m => m
  | i, s :: rest, m => concAux (i + 1) rest (processSentence i m s)

/-- `concordance(data)`: build the word → sentence-index map. -/
def concordance (data : List String) : Conc :=
  concAux 0 data []

/-- The inner `for` loop of `searchLines` over one index list: resolve each
sentence index against `data` (`none` models `undefined` for an
out-of-range index) and append it to the result unless already present. -/
def addIndices (data : List String) (idxs : List Nat)
    (result : List (Option String)) : List (Option String) :=
  idxs.foldl
    (fun res i =>
      let sentence := data.get? i
      if sentence ∈ res then res else res ++ [sentence]) result

/-- The `while (word)` loop of `searchLines`.  Faithful to the source:
`key` is the `lowerCasedKey` computed before the loop and never
reassigned, so every iteration looks up the same key; an absent key
returns `[]` discarding the accumulator. -/
def searchLoop (key : String) (conc : Conc) (data : List String) :
    List String → List (Option String) → List (Option String)
  | [], result => result
  | _ :: rest, result =>
    match mapGet conc key with
    | some idxs => searchLoop key conc data rest (addIndices data idxs result)
    | none => []

/-- `searchLines(words, concordance, data)`: with an empty word list return
`[]` at once; otherwise lower-case the first word's value into
`lowerCasedKey` and run the `while` loop over the node chain. -/
def searchLines (words : List String) (conc : Conc) (data : List String) :
    List (Option String) :=
  match words with
  | [] => []
  | w :: _ => searchLoop (toLower w) conc data words []

end Concordance

/-! ## Helper lemmas on the concordance model -/

namespace Concordance

theorem mapGet_mapSet (m : Conc) (k : String) (v : List Nat) (w : String) :
    mapGet (mapSet m k v) w = if w = k then some v else mapGet m w := by
  induction m with
  | nil =>
    by_cases h : k = w
    · simp [mapSet, mapGet, h]
    · simp [mapSet, mapGet, h, show ¬w = k from fun hw => h hw.symm]
  | cons p rest ih =>
    simp only [mapSet]
    by_cases h1 : p.1 = k
    · simp only [if_pos h1, mapGet]
      by_cases h2 : k = w
      · simp [h2]
      · simp only [if_neg h2, if_neg (show ¬w = k from fun hw => h2 hw.symm),
          if_neg (show ¬p.1 = w from fun hp => h2 (h1.symm.trans hp))]
    · simp only [if_neg h1, mapGet]
      by_cases h3 : p.1 = w
      · simp only [if_pos h3,
          if_neg (show ¬w = k from fun hwk => h1 (h3.trans hwk))]
      · simp only [if_neg h3, ih]

theorem mem_foldl_setDedup (x : String) (l acc : List String) :
    x ∈ l.foldl (fun acc y => if y ∈ acc then acc else acc ++ [y]) acc ↔
      x ∈ acc ∨ x ∈ l := by
  induction l generalizing acc with
  | nil => simp
  | cons y rest ih =>
    rw [List.foldl_cons, ih]
    by_cases hy : y ∈ acc
    · simp only [if_pos hy, List.mem_cons]
      constructor
      · rintro (h | h)
        · exact Or.inl h
        · exact Or.inr (Or.inr h)
      · rintro (h | rfl | h)
        · exact Or.inl h
        · exact Or.inl hy
        · exact Or.inr h
    · simp only [if_neg hy, List.mem_append, List.mem_singleton, List.mem_cons]
      tauto

theorem mem_setDedup (x : String) (l : List String) :
    x ∈ setDedup l ↔ x ∈ l := by
  rw [setDedup, mem_foldl_setDedup]
  simp

theorem mapGet_processWord_isSome (i : Nat) (m : Conc) (t w : String) :
    (mapGet (processWord i m t) w).isSome ↔
      (mapGet m w).isSome ∨ (toLower t = w ∧ w ≠ "") := by
  rw [processWord]
  by_cases hw : toLower t = ""
  · simp only [hw, ne_eq, not_true_eq_false, if_false]
    constructor
    · exact Or.inl
    · rintro (h | ⟨rfl, hne⟩)
      · exact h
      · exact absurd rfl hne
  · simp only [ne_eq, hw, not_false_eq_true, if_true]
    cases hg : mapGet m (toLower t) with
    | some v =>
      rw [mapGet_mapSet]
      by_cases hwt : w = toLower t
      · subst hwt
        simp [hg, hw]
      · simp only [if_neg hwt]
        constructor
        · exact Or.inl
        · rintro (h | ⟨rfl, _⟩)
          · exact h
          · exact absurd rfl hwt
    | none =>
      rw [mapGet_mapSet]
      by_cases hwt : w = toLower t
      · subst hwt
        simp [hw]
      · simp only [if_neg hwt]
        constructor
        · exact Or.inl
        · rintro (h | ⟨rfl, _⟩)
          · exact h
          · exact absurd rfl hwt

theorem mapGet_foldl_processWord_isSome (i : Nat) (w : String) :
    ∀ (l : List String) (m : Conc),
      (mapGet (l.foldl (processWord i) m) w).isSome ↔
        (mapGet m w).isSome ∨ ∃ t ∈ l, toLower t = w ∧ w ≠ "" := by
  intro l
  induction l with
  | nil => simp
  | cons t rest ih =>
    intro m
    rw [List.foldl_cons, ih, mapGet_processWord_isSome]
    simp only [List.mem_cons]
    constructor
    · rintro ((h | h) | ⟨u, hu, h⟩)
      · exact Or.inl h
      · exact Or.inr ⟨t, Or.inl rfl, h⟩
      · exact Or.inr ⟨u, Or.inr hu, h⟩
    · rintro (h | ⟨u, (rfl | hu), h⟩)
      · exact Or.inl (Or.inl h)
      · exact Or.inl (Or.inr h)
      · exact Or.inr ⟨u, hu, h⟩

theorem mapGet_processSentence_isSome (i : Nat) (m : Conc) (s w : String) :
    (mapGet (processSentence i m s) w).isSome ↔
      (mapGet m w).isSome ∨ ∃ t ∈ splitDelim s, toLower t = w ∧ w ≠ "" := by
  rw [processSentence, mapGet_foldl_processWord_isSome]
  constructor
  · rintro (h | ⟨t, ht, h⟩)
    · exact Or.inl h
    · exact Or.inr ⟨t, (mem_setDedup t _).mp ht, h⟩
  · rintro (h | ⟨t, ht, h⟩)
    · exact Or.inl h
    · exact Or.inr ⟨t, (mem_setDedup t _).mpr ht, h⟩

theorem mapGet_concAux_isSome (w : String) :
    ∀ (data : List String) (i : Nat) (m : Conc),
      (mapGet (concAux i data m) w).isSome ↔
        (mapGet m w).isSome ∨
          ∃ s ∈ data, ∃ t ∈ splitDelim s, toLower t = w ∧ w ≠ "" := by
  intro data
  induction data with
  | nil => simp [concAux]
  | cons s rest ih =>
    intro i m
    rw [concAux, ih, mapGet_processSentence_isSome]
    simp only [List.mem_cons]
    constructor
    · rintro ((h | ⟨t, ht, h⟩) | ⟨u, hu, h⟩)
      · exact Or.inl h
      · exact Or.inr ⟨s, Or.inl rfl, t, ht, h⟩
      · exact Or.inr ⟨u, Or.inr hu, h⟩
    · rintro (h | ⟨u, (rfl | hu), h⟩)
      · exact Or.inl (Or.inl h)
      · exact Or.inl (Or.inr h)
      · exact Or.inr ⟨u, hu, h⟩

theorem mem_mapSet {q : String × List Nat} {m : Conc} {k : String}
    {v : List Nat} (h : q ∈ mapSet m k v) : q ∈ m ∨ q = (k, v) := by
  induction m with
  | nil => simpa [mapSet] using h
  | cons p rest ih =>
    rw [mapSet] at h
    by_cases h1 : p.1 = k
    · rw [if_pos h1] at h
      rcases List.mem_cons.mp h with h | h
      · exact Or.inr h
      · exact Or.inl (List.mem_cons_of_mem _ h)
    · rw [if_neg h1] at h
      rcases List.mem_cons.mp h with h | h
      · exact Or.inl (h ▸ List.mem_cons_self _ _)
      · rcases ih h with h | h
        · exact Or.inl (List.mem_cons_of_mem _ h)
        · exact Or.inr h

theorem processWord_values_nonempty {i : Nat} {m : Conc} {t : String}
    (h : ∀ q ∈ m, q.2 ≠ []) : ∀ q ∈ processWord i m t, q.2 ≠ [] := by
  intro q hq
  rw [processWord] at hq
  by_cases hw : toLower t = ""
  · rw [if_neg (by simpa using hw)] at hq
    exact h q hq
  · rw [if_pos (by simpa using hw)] at hq
    cases hg : mapGet m (toLower t) with
    | some v =>
      rw [hg] at hq
      rcases mem_mapSet hq with hqm | rfl
      · exact h q hqm
      · simp
    | none =>
      rw [hg] at hq
      rcases mem_mapSet hq with hqm | rfl
      · exact h q hqm
      · simp

theorem foldl_processWord_values_nonempty (i : Nat) :
    ∀ (l : List String) (m : Conc), (∀ q ∈ m, q.2 ≠ []) →
      ∀ q ∈ l.foldl (processWord i) m, q.2 ≠ [] := by
  intro l
  induction l with
  | nil => intro m h; simpa using h
  | cons t rest ih =>
    intro m h
    rw [List.foldl_cons]
    exact ih _ (processWord_values_nonempty h)

theorem concAux_values_nonempty :
    ∀ (data : List String) (i : Nat) (m : Conc), (∀ q ∈ m, q.2 ≠ []) →
      ∀ q ∈ concAux i data m, q.2 ≠ [] := by
  intro data
  induction data with
  | nil => intro i m h; simpa [concAux] using h
  | cons s rest ih =>
    intro i m h
    rw [concAux]
    exact ih _ _ (foldl_processWord_values_nonempty i _ m h)

theorem mapGet_mem {m : Conc} {w : String} {v : List Nat}
    (h : mapGet m w = some v) : (w, v) ∈ m := by
  induction m with
  | nil => simp [mapGet] at h
  | cons p rest ih =>
    rw [mapGet] at h
    by_cases h1 : p.1 = w
    · rw [if_pos h1] at h
      have hv : p.2 = v := Option.some.inj h
      have : (w, v) = p := by
        cases p
        simp_all
      exact this ▸ List.mem_cons_self _ _
    · rw [if_neg h1] at h
      exact List.mem_cons_of_mem _ (ih h)

end Concordance

namespace LinkedList

variable {α : Type}

/-- `insertAtHead(value)`: `this.head = new Node(value, this.head)`. -/
def insertAtHead (value : α) (l : List α) : List α :=
  value :: l

/-- The `LinkedList` constructor on an array argument: `values.reverse()`
reverses the caller's array **in place** and returns the same array, then
`forEach` inserts each element at the head.  The first component is the
resulting node chain; the second is the caller's array after construction
(its post-mutation contents). -/
def LinkedList_new (values : List α) : List α × List α :=
  let reversed := values.reverse
  (reversed.foldl (fun l v => insertAtHead v l) [], reversed)

/-- `findWithPrevious(isMatch)` / `find(isMatch)`, abstracted to the index
of the first node (counting from `0` at the head) where
`isMatch(node, index)` holds, or `none` when no node matches; the matched
node is the one at that index and the previous node is the one before it.
`j` is the running `index` counter of the `while` loop. -/
def findIdxFrom (p : α → Nat → Bool) : List α → Nat → Option Nat
  | [], _ => none
  | v :: rest, j => if p v j then some j else findIdxFrom p rest (j + 1)

/-- The index of the first matching node, starting the counter at `0`. -/
def findIndex (l : List α) (p : α → Nat → Bool) : Option Nat :=
  findIdxFrom p l 0

/-- Splice a value in after position `i`:
`previousNode.next = new Node(value, previousNode.next)` where
`previousNode` is the node at index `i`. -/
def insertAfter : List α → Nat → α → List α
  | [], _, _ => []
  | x :: xs, 0, v => x :: v :: xs
  | x :: xs, i + 1, v => x :: insertAfter xs i v

/-- `insert(value, isMatch)`: on an empty list insert at the head; otherwise
find the first matching node and splice after it, or throw
`"No match found."`.  The first component is the list afterwards (the
throw happens before any mutation, so on failure it is the input list);
the second is the thrown error message, `none` when no throw. -/
def insert (l : List α) (value : α) (p : α → Nat → Bool) :
    List α × Option String :=
  match l with
  | [] => (insertAtHead value [], none)
  | _ :: _ =>
    match findIndex l p with
    | none => (l, some "No match found.")
    | some i => (insertAfter l i value, none)

/-- Drop the node at position `i` (for `i > 0`:
`previousNode.next = matchedNode.next`). -/
def removeAt : List α → Nat → List α
  | [], _ => []
  | _ :: xs, 0 => xs
  | x :: xs, i + 1 => x :: removeAt xs i

/-- `remove(isMatch)`: when the first match is the head, advance the head;
when it is at a later index, unlink it via the previous node.  When no
node matches, `findWithPrevious` returns `[null, null]`: with an empty
list the `this.head === matchedNode` branch reads `this.head.next` on
`null`, otherwise the `else` branch reads `previousNode.next` on `null` —
both throw an unhandled `TypeError`, modelled as `none`. -/
def remove (l : List α) (p : α → Nat → Bool) : Option (List α) :=
  match findIndex l p with
  | some 0 => some l.tail
  | some (i + 1) => some (removeAt l (i + 1))
  | none => none

/-- `asArray()`: walk the chain from the head, pushing each value. -/
def asArray : List α → List α
  | [] => []
  | v :: rest => v :: asArray rest

end LinkedList

/-! ## Helper lemmas on the linked-list model -/

namespace LinkedList

variable {α : Type}

theorem asArray_eq (l : List α) : asArray l = l := by
  induction l with
  | nil => rfl
  | cons v rest ih => simp [asArray, ih]

theorem foldl_insertAtHead (l acc : List α) :
    l.foldl (fun a x => insertAtHead x a) acc = l.reverse ++ acc := by
  induction l generalizing acc with
  | nil => rfl
  | cons v rest ih => simp [List.foldl, insertAtHead, ih]

theorem LinkedList_new_fst (values : List α) :
    (LinkedList_new values).1 = values := by
  show values.reverse.foldl (fun l v => insertAtHead v l) [] = values
  rw [foldl_insertAtHead]
  simp

theorem findIdxFrom_some_bounds {p : α → Nat → Bool} {l : List α} {j i : Nat}
    (h : findIdxFrom p l j = some i) : j ≤ i ∧ i < j + l.length := by
  induction l generalizing j with
  | nil => simp [findIdxFrom] at h
  | cons v rest ih =>
    rw [findIdxFrom] at h
    by_cases hp : p v j
    · rw [if_pos hp] at h
      have hji : j = i := Option.some.inj h
      subst hji
      simp only [List.length_cons]
      omega
    · rw [if_neg hp] at h
      have := ih h
      simp only [List.length_cons]
      omega

theorem findIndex_some_lt {p : α → Nat → Bool} {l : List α} {i : Nat}
    (h : findIndex l p = some i) : i < l.length := by
  have := findIdxFrom_some_bounds h
  omega

theorem insertAfter_eq_take_drop (l : List α) (i : Nat) (v : α)
    (h : i < l.length) :
    insertAfter l i v = l.take (i + 1) ++ v :: l.drop (i + 1) := by
  induction l generalizing i with
  | nil => simp at h
  | cons x xs ih =>
    cases i with
    | zero => simp [insertAfter]
    | succ i =>
      simp only [List.length_cons, Nat.succ_lt_succ_iff] at h
      simp [insertAfter, ih i h]

theorem findIdxFrom_eq_none {p : α → Nat → Bool} {l : List α} {j : Nat}
    (h : ∀ i v, l.get? i = some v → p v (j + i) = false) :
    findIdxFrom p l j = none := by
  induction l generalizing j with
  | nil => rfl
  | cons v rest ih =>
    rw [findIdxFrom]
    have h0 : p v j = false := by
      have := h 0 v (by rfl)
      simpa using this
    rw [h0]
    simp only [Bool.false_eq_true, if_false]
    apply ih
    intro i w hw
    have := h (i + 1) w (by simpa using hw)
    have harith : j + (i + 1) = j + 1 + i := by omega
    rwa [harith] at this

end LinkedList

/-! ## Claim theorems about the indexer and query engine -/

/-- **C1** (evaluation at the failing input): `searchLines` computes
`lowerCasedKey` once, from the first term only, before the `while` loop
and never reassigns it, so the iteration for the second term `"the"`
looks up `"cat"` again instead of `"the"`.  The run therefore yields only
`["the cat sat"]`, not the `["the cat sat", "the dog ran"]` that per-term
lookup would produce. -/
theorem searchLines_stale_key_example :
    Concordance.searchLines ["cat", "the"]
      (Concordance.concordance ["the cat sat", "the dog ran", "cats and dogs"])
      ["the cat sat", "the dog ran", "cats and dogs"] =
      [some "the cat sat"] ∧
    [some "the cat sat"] ≠
      [some "the cat sat", some "the dog ran"] := by decide

/-- **C2** (evaluation at the failing input): `"zzz"` is absent from the
concordance built from `["cat sat", "dog ran"]`, yet because the loop
keeps looking up the first term's key `"cat"`, the absence of `"zzz"` is
never detected and the search returns `["cat sat"]` instead of aborting
to `[]`. -/
theorem searchLines_absent_term_not_aborted :
    Concordance.mapGet (Concordance.concordance ["cat sat", "dog ran"]) "zzz" =
      none ∧
    Concordance.searchLines ["cat", "zzz"]
      (Concordance.concordance ["cat sat", "dog ran"]) ["cat sat", "dog ran"] =
      [some "cat sat"] := by decide

/-- **C3** (evaluation at the failing input): the search for
`["CAT", "zzz"]` returns a non-empty result even though the lower-cased
term `"zzz"` is not a key of the concordance, because only the first
term's key is ever looked up. -/
theorem searchLines_nonempty_with_absent_term :
    Concordance.searchLines ["CAT", "zzz"]
      (Concordance.concordance ["cat sat", "dog ran"]) ["cat sat", "dog ran"] ≠
      [] ∧
    Concordance.mapGet (Concordance.concordance ["cat sat", "dog ran"])
      (Concordance.toLower "zzz") = none := by decide

/-- **C4** (evaluation at the failing input): `concordance` deduplicates the
raw tokens of a sentence *before* lower-casing them, so in `"Cat cat"`
the two case variants both survive the `Set`, both lower-case to
`"cat"`, and index `0` is appended twice: the index list `[0, 0]`
repeats a sentence index and is not strictly ascending. -/
theorem concordance_case_variant_duplicate_index :
    Concordance.mapGet (Concordance.concordance ["Cat cat"]) "cat" =
      some [0, 0] ∧
    ¬ List.Chain' (· < ·) ([0, 0] : List Nat) :=
  ⟨by decide, by simp [List.chain'_cons]⟩

/-- **C5**: a word is a key of the concordance built from `data` iff it is
non-empty and some sentence of `data` has a token (under the delimiter
split) that lower-cases to it; and no key ever maps to an empty index
list. -/
theorem concordance_key_iff_word_occurs (data : List String) (w : String) :
    ((Concordance.mapGet (Concordance.concordance data) w).isSome ↔
      w ≠ "" ∧ ∃ s ∈ data, ∃ t ∈ Concordance.splitDelim s,
        Concordance.toLower t = w) ∧
    (∀ v, Concordance.mapGet (Concordance.concordance data) w = some v →
      v ≠ []) := by
  constructor
  · rw [Concordance.concordance, Concordance.mapGet_concAux_isSome]
    constructor
    · rintro (habs | ⟨s, hs, t, ht, hw, hne⟩)
      · simp [Concordance.mapGet] at habs
      · exact ⟨hne, s, hs, t, ht, hw⟩
    · rintro ⟨hne, s, hs, t, ht, hw⟩
      exact Or.inr ⟨s, hs, t, ht, hw, hne⟩
  · intro v hv
    exact Concordance.concAux_values_nonempty data 0 [] (by simp)
      (w, v) (Concordance.mapGet_mem hv)

/-- Witness for C5: `"cat"` occurs in the single sentence `"cat sat"`, so it
is a key of the concordance built from it. -/
theorem concordance_key_iff_word_occurs_witness :
    (Concordance.mapGet (Concordance.concordance ["cat sat"]) "cat").isSome =
      true := by
  have h := (concordance_key_iff_word_occurs ["cat sat"] "cat").1
  exact h.mpr ⟨by decide, "cat sat", by simp, "cat", by decide, by decide⟩

/-! ## Claim theorems about the linked-list container -/

/-- **C6**: for every concordance and sentence sequence, `searchLines` on an
empty query term list returns `[]` immediately: `words.head` is `null`, so
the `if (!word) return []` guard fires before any concordance lookup —
the result does not depend on `conc` or `data` at all. -/
theorem searchLines_empty_terms (conc : Concordance.Conc) (data : List String) :
    Concordance.searchLines [] conc data = [] := rfl

/-- **C7**: `insert` throws `"No match found."` exactly when the list is
non-empty and no node satisfies the match predicate; on an empty list the
value becomes the head; on failure the list is unchanged; otherwise the
value is spliced in right after the first matching node. -/
theorem insert_error_iff_no_match (l : List String) (v : String)
    (p : String → Nat → Bool) :
    ((LinkedList.insert l v p).2 = some "No match found." ↔
      l ≠ [] ∧ LinkedList.findIndex l p = none) ∧
    (l = [] → LinkedList.insert l v p = ([v], none)) ∧
    (l ≠ [] → LinkedList.findIndex l p = none →
      LinkedList.insert l v p = (l, some "No match found.")) ∧
    (∀ i, LinkedList.findIndex l p = some i →
      LinkedList.insert l v p = (l.take (i + 1) ++ v :: l.drop (i + 1), none)) := by
  cases l with
  | nil =>
    refine ⟨by simp [LinkedList.insert, LinkedList.insertAtHead], ?_, ?_, ?_⟩
    · intro _; rfl
    · intro hne _; exact absurd rfl hne
    · intro i hi; simp [LinkedList.findIndex, LinkedList.findIdxFrom] at hi
  | cons x xs =>
    cases hf : LinkedList.findIndex (x :: xs) p with
    | none =>
      refine ⟨by simp [LinkedList.insert, hf], ?_, ?_, ?_⟩
      · intro h; exact absurd h (by simp)
      · intro _ _; simp [LinkedList.insert, hf]
      · intro i hi; exact Option.noConfusion hi
    | some i =>
      have hlt : i < (x :: xs).length := LinkedList.findIndex_some_lt hf
      refine ⟨by simp [LinkedList.insert, hf], ?_, ?_, ?_⟩
      · intro h; exact absurd h (by simp)
      · intro _ h; exact Option.noConfusion h
      · intro i' hi'
        have hii : i = i' := Option.some.inj hi'
        subst hii
        simp [LinkedList.insert, hf,
          LinkedList.insertAfter_eq_take_drop _ _ _ hlt]

/-- Witness for C7: on `["a"]` with a predicate matching `"a"`, `insert`
splices the new value directly after the head. -/
theorem insert_error_iff_no_match_witness :
    LinkedList.insert ["a"] "b" (fun s _ => s == "a") = (["a", "b"], none) := by
  have h := (insert_error_iff_no_match ["a"] "b" (fun s _ => s == "a")).2.2.2
    0 (by decide)
  simpa using h

/-- **C8**: constructing the query term list from an array and converting
back with `asArray` returns the original sequence in order (the
constructor reverse-inserts at the head, which restores input order);
concretely so for `["a", "b", "c"]`. -/
theorem linkedList_roundtrip_asArray :
    (∀ values : List String,
      LinkedList.asArray (LinkedList.LinkedList_new values).1 = values) ∧
    LinkedList.asArray (LinkedList.LinkedList_new ["a", "b", "c"]).1 =
      ["a", "b", "c"] := by
  have huniv : ∀ values : List String,
      LinkedList.asArray (LinkedList.LinkedList_new values).1 = values := by
    intro values
    rw [LinkedList.asArray_eq, LinkedList.LinkedList_new_fst]
  exact ⟨huniv, huniv ["a", "b", "c"]⟩

/-- **C9**: when no node satisfies the predicate (in particular on an empty
list), `remove` hits a `null` dereference — `this.head.next` on an empty
list, `previousNode.next` otherwise — and raises a `TypeError`
(modelled as `none`) instead of returning the list unchanged. -/
theorem remove_no_match_raises (l : List String) (p : String → Nat → Bool)
    (h : ∀ i v, l.get? i = some v → p v i = false) :
    LinkedList.remove l p = none := by
  have hnone : LinkedList.findIndex l p = none := by
    apply LinkedList.findIdxFrom_eq_none
    intro i v hv
    simpa using h i v hv
  rw [LinkedList.remove, hnone]

/-- Witness for C9: removing from `["a"]` with a never-matching predicate
raises the modelled `TypeError`. -/
theorem remove_no_match_raises_witness :
    LinkedList.remove ["a"] (fun _ _ => false) = none :=
  remove_no_match_raises ["a"] (fun _ _ => false) (fun _ _ _ => rfl)

/-- **C10**: the constructor's `values.reverse()` mutates the caller's array
in place, leaving it reversed after construction, while front-to-back
iteration of the built list yields the original input order. -/
theorem constructor_reverses_argument (values : List String) :
    (LinkedList.LinkedList_new values).2 = values.reverse ∧
    LinkedList.asArray (LinkedList.LinkedList_new values).1 = values := by
  refine ⟨rfl, ?_⟩
  rw [LinkedList.asArray_eq, LinkedList.LinkedList_new_fst]
